import Mathlib

/-!
Verification of the student-grade management logic of `gestion_notas.py`
(a Streamlit app).  The business-logic layer is embedded shallowly:

* a student record (`{"nombre": ..., "nota": ...}`) becomes `Student`;
* the session state (`st.session_state.students`,
  `st.session_state.modification_attempts`) becomes `AppState`, where the
  Python dict keyed by exact student-name strings is modelled as an
  association list with unique keys;
* Python floats (`nota`) are modelled as exact rationals `ℚ`; float
  arithmetic (`np.mean`/`np.max`/`np.min`, `==` on grades) is idealised as
  exact rational arithmetic;
* `str.lower` is modelled by mapping `Char.toLower` over the string
  (faithful on the ASCII repertoire; the non-ASCII letters appearing in the
  repository's examples are already lowercase);
* each tab handler's business logic becomes a function from state and
  inputs to a result and a new state.
-/

set_option maxHeartbeats 1000000

namespace GestionNotas

/-- Constant `MODIFICATION_LIMIT = 3` (line 44 of the source). -/
def MODIFICATION_LIMIT : Nat := 3

/-- Constant `PASSING_GRADE = 3.0` (line 45 of the source). -/
def PASSING_GRADE : ℚ := 3

/-- Models Python `str.lower` (ASCII repertoire): lowercase every
character of the string. -/
def lower (s : String) : String := ⟨s.data.map Char.toLower⟩

/-- A student record `{"nombre": name, "nota": grade}`. -/
structure Student where
  nombre : String
  nota : ℚ
deriving DecidableEq, Repr

/-- The mutable session state: the roster list and the
`modification_attempts` dict (modelled as an association list whose keys
are exact name strings). -/
structure AppState where
  students : List Student
  modification_attempts : List (String × Nat)
deriving DecidableEq, Repr

/-- The session state as initialised at session start (lines 98-101). -/
def initState : AppState := ⟨[], []⟩

/-- Models `st.session_state.modification_attempts.get(name, 0)`:
dict lookup by exact key, default 0. -/
def attemptsGet : List (String × Nat) → String → Nat
  | [], _ => 0
  | (k, v) :: rest, name => if k = name then v else attemptsGet rest name

/-- Models `d[name] = v` on a Python dict: replace the binding in place if
the exact key is present, otherwise append a new binding. -/
def dictSet : List (String × Nat) → String → Nat → List (String × Nat)
  | [], k, v => [(k, v)]
  | (k', v') :: rest, k, v =>
    if k' = k then (k, v) :: rest else (k', v') :: dictSet rest k v

/-- Models `if name in d: del d[name]`: remove the binding with the exact
key `name` (a Python dict has unique keys, so filtering is equivalent). -/
def dictDel (m : List (String × Nat)) (k : String) : List (String × Nat) :=
  m.filter (fun p => p.1 ≠ k)

/-- `find_student_index(name)` (lines 105-110): index of the first student
whose lowercased name equals the lowercased argument, else `none`. -/
def find_student_index : List Student → String → Option Nat
  | [], _ => none
  | s :: rest, name =>
    if lower s.nombre = lower name then some 0
    else (find_student_index rest name).map (· + 1)

/-- The statistics record returned by `get_stats`. -/
structure Stats where
  average : ℚ
  high : ℚ
  low : ℚ
deriving DecidableEq, Repr

/-- Models `np.max` on a (nonempty) list of grades; 0 on `[]`, which
`get_stats` never reaches. -/
def listMax : List ℚ → ℚ
  | [] => 0
  | [x] => x
  | x :: y :: rest => max x (listMax (y :: rest))

/-- Models `np.min` on a (nonempty) list of grades; 0 on `[]`, which
`get_stats` never reaches. -/
def listMin : List ℚ → ℚ
  | [] => 0
  | [x] => x
  | x :: y :: rest => min x (listMin (y :: rest))

/-- `get_stats()` (lines 112-127): zeros on an empty roster, otherwise
mean / max / min of the grades.  The `except` branch of the source is
unreachable for well-formed records and is not modelled. -/
def get_stats (students : List Student) : Stats :=
  if students = [] then ⟨0, 0, 0⟩
  else
    let notes := students.map Student.nota
    ⟨notes.sum / (notes.length : ℚ), listMax notes, listMin notes⟩

/-- `delete_student(name)` (lines 129-138): pop the record at the found
index and delete the attempts entry keyed by the exact argument string;
returns `False` (state unchanged) when no record matches. -/
def delete_student (st : AppState) (name : String) : Bool × AppState :=
  match find_student_index st.students name with
  | some i =>
    (true, ⟨st.students.eraseIdx i, dictDel st.modification_attempts name⟩)
  | none => (false, st)

/-- `reset_all_data()` (lines 140-143). -/
def reset_all_data : AppState := ⟨[], []⟩

/-- Result of the add handler. -/
inductive AddResult where
  | emptyName
  | duplicateName
  | added
deriving DecidableEq, Repr

/-- The `tab_add` handler's business logic (lines 231-241): reject the
empty name (`if not name`), then reject a case-insensitive duplicate, else
append the new record; the attempts dict is never touched. -/
def addStudent (st : AppState) (name : String) (grade : ℚ) :
    AddResult × AppState :=
  if name = "" then (.emptyName, st)
  else if (find_student_index st.students name).isSome then
    (.duplicateName, st)
  else
    (.added, ⟨st.students ++ [⟨name, grade⟩], st.modification_attempts⟩)

/-- Result of the modify handler.  `updated remaining` carries the
remaining-attempts count `MODIFICATION_LIMIT - (attempts + 1)` that the
handler displays on success (line 287). -/
inductive ModifyResult where
  | limitReached
  | notFound
  | noChange
  | updated (remaining : Nat)
deriving DecidableEq, Repr

/-- `students[i]['nota']`, with an unreachable default for an out-of-range
index. -/
def getNota : List Student → Nat → ℚ
  | [], _ => 0
  | s :: _, 0 => s.nota
  | _ :: rest, n + 1 => getNota rest n

/-- `students[i]['nota'] = g`: in-place update of the grade at index `i`,
leaving every other record (and the record's name) unchanged. -/
def setNota : List Student → Nat → ℚ → List Student
  | [], _, _ => []
  | s :: rest, 0, g => ⟨s.nombre, g⟩ :: rest
  | s :: rest, n + 1, g => s :: setNota rest n g

/-- The `tab_modify` handler's business logic (lines 259-287), in the
source's order of checks: the limit gate (line 264) runs first on
`attempts = modification_attempts.get(name, 0)`; then the record is looked
up (the UI's selectbox guarantees the lookup succeeds; the `notFound`
branch models the spec's behaviour for an absent name); an unchanged grade
is a warned no-op (lines 281-282); otherwise the grade is updated in
place, the counter incremented, and the remaining budget reported
(lines 284-287). -/
def modifyStudent (st : AppState) (name : String) (newGrade : ℚ) :
    ModifyResult × AppState :=
  if MODIFICATION_LIMIT ≤ attemptsGet st.modification_attempts name then
    (.limitReached, st)
  else
    match find_student_index st.students name with
    | none => (.notFound, st)
    | some i =>
      if newGrade = getNota st.students i then (.noChange, st)
      else
        (.updated (MODIFICATION_LIMIT -
            (attemptsGet st.modification_attempts name + 1)),
         ⟨setNota st.students i newGrade,
          dictSet st.modification_attempts name
            (attemptsGet st.modification_attempts name + 1)⟩)

/-- One user action against the store: the four mutating operations. -/
inductive Op where
  | add (name : String) (grade : ℚ)
  | modify (name : String) (grade : ℚ)
  | delete (name : String)
  | resetAll
deriving DecidableEq, Repr

/-- Applying one user action to the session state. -/
def step (st : AppState) : Op → AppState
  | .add n g => (addStudent st n g).2
  | .modify n g => (modifyStudent st n g).2
  | .delete n => (delete_student st n).2
  | .resetAll => reset_all_data

/-- The session state after a sequence of user actions, starting from the
empty session. -/
def run (ops : List Op) : AppState := ops.foldl step initState

/-- Modelled from the spec's wording ("empty/blank name"): a string all of
whose characters are whitespace.  The source's test `if not name` rejects
only the empty string, not blank ones. -/
def isBlank (s : String) : Bool := s.data.all Char.isWhitespace

/-- The roster invariant claimed by the spec: no two records share the
same case-folded name. -/
def UniqNames (students : List Student) : Prop :=
  (students.map (fun s => lower s.nombre)).Nodup

/-- Every record in the roster has a nonempty name (a consequence of the
add handler's empty-name check, needed to show a colliding add can never
take the empty-name branch). -/
def NamesNonempty (students : List Student) : Prop :=
  ∀ s ∈ students, s.nombre ≠ ""

/-- Every attempt-counter value in the dictionary is at most the
modification limit. -/
def AttemptsBounded (m : List (String × Nat)) : Prop :=
  ∀ p ∈ m, p.2 ≤ MODIFICATION_LIMIT

/-- The derived Estado column (line 184):
`"Aprobado" if nota >= PASSING_GRADE else "Reprobado"`. -/
def estado (nota : ℚ) : String :=
  if PASSING_GRADE ≤ nota then "Aprobado" else "Reprobado"

/-- A cell of the exported DataFrame: a text cell or a numeric (grade)
cell.  The textual rendering of a numeric cell (pandas float formatting)
is presentation-level and not modelled. -/
inductive Cell where
  | str (s : String)
  | num (q : ℚ)
deriving DecidableEq, Repr

/-- One data row of the exported DataFrame, in column order
nombre, nota, Estado (lines 182-184). -/
def csvRow (s : Student) : List Cell :=
  [.str s.nombre, .num s.nota, .str (estado s.nota)]

/-- The cell grid of `df.to_csv(index=False)` (lines 204-206): a header
row followed by one row per student in roster order.  Delimiters, quoting
and UTF-8 encoding of the grid are presentation-level and not modelled. -/
def csvRows (students : List Student) : List (List Cell) :=
  [.str "nombre", .str "nota", .str "Estado"] :: students.map csvRow

/-- Python `re` metacharacters (the search term is handed to pandas
`str.contains`, whose default is `regex=True`). -/
def isMetaChar (c : Char) : Bool :=
  c = '.' || c = '^' || c = '$' || c = '*' || c = '+' || c = '?' ||
  c = '\x7b' || c = '\x7d' || c = '[' || c = ']' || c = '\\' || c = '|' ||
  c = '(' || c = ')'

/-- A regex atom of the modelled fragment: a literal character or the
any-character metacharacter `.`. -/
inductive ReAtom where
  | lit (c : Char)
  | dot
deriving DecidableEq, Repr

/-- Parse a pattern into atoms: `.` becomes the any-character atom, any
other metacharacter is outside the modelled fragment (`none`), anything
else is a literal. -/
def parsePattern : List Char → Option (List ReAtom)
  | [] => some []
  | c :: rest =>
    if c = '.' then (parsePattern rest).map (fun as => ReAtom.dot :: as)
    else if isMetaChar c then none
    else (parsePattern rest).map (fun as => ReAtom.lit c :: as)

/-- Whether one atom matches one character. -/
def atomMatches : ReAtom → Char → Bool
  | .lit c, d => c = d
  | .dot, _ => true

/-- Whether the atom sequence matches a prefix of the character list. -/
def matchHere : List ReAtom → List Char → Bool
  | [], _ => true
  | _ :: _, [] => false
  | a :: as, c :: cs => atomMatches a c && matchHere as cs

/-- `re.search` over the modelled fragment: the atoms match starting at
some position of the character list. -/
def reSearch (atoms : List ReAtom) : List Char → Bool
  | [] => matchHere atoms []
  | c :: cs => matchHere atoms (c :: cs) || reSearch atoms cs

/-- The report tab's search filter (lines 187-191): an empty term (falsy
in Python) leaves the roster unfiltered; otherwise
`df['nombre'].str.contains(search_term, case=False, na=False)` keeps the
records whose name the term matches as a case-insensitive regular
expression (pandas' default is `regex=True`; `case=False` is modelled by
lowercasing both sides).  Regex constructs beyond literal characters and
`.` are outside the modelled fragment and yield `none`. -/
def searchStudents (term : String) (students : List Student) :
    Option (List Student) :=
  if term = "" then some students
  else
    (parsePattern (lower term).data).map (fun atoms =>
      students.filter (fun s => reSearch atoms (lower s.nombre).data))

/-- A term with no regex metacharacter at all (after case folding). -/
def allLiteral (s : String) : Bool := s.data.all (fun c => !(isMetaChar c))

/-- Modelled from the spec's wording for `search`: `name` contains `term`
as a case-insensitive substring. -/
def substrCI (term name : String) : Prop :=
  (lower term).data <:+: (lower name).data

instance substrCI.instDecidable (term name : String) :
    Decidable (substrCI term name) :=
  List.decidableInfix _ _

/-! ### Lemmas about the attempts dictionary -/

theorem attemptsGet_dictSet_self (m : List (String × Nat)) (k : String)
    (v : Nat) : attemptsGet (dictSet m k v) k = v := by
  induction m with
  | nil => simp [dictSet, attemptsGet]
  | cons p rest ih =>
    obtain ⟨k', v'⟩ := p
    by_cases h : k' = k
    · subst h; simp [dictSet, attemptsGet]
    · simp [dictSet, attemptsGet, h, ih]

theorem attemptsGet_dictDel_self (m : List (String × Nat)) (k : String) :
    attemptsGet (dictDel m k) k = 0 := by
  induction m with
  | nil => simp [dictDel, attemptsGet]
  | cons p rest ih =>
    obtain ⟨k', v'⟩ := p
    by_cases h : k' = k
    · simpa [dictDel, List.filter_cons, h] using ih
    · simpa [dictDel, List.filter_cons, h, attemptsGet] using ih

/-! ### Lemmas about `find_student_index` -/

theorem find_student_index_lt_length (l : List Student) (name : String)
    (i : Nat) (h : find_student_index l name = some i) : i < l.length := by
  induction l generalizing i with
  | nil => simp [find_student_index] at h
  | cons s rest ih =>
    by_cases hs : lower s.nombre = lower name
    · simp [find_student_index, hs] at h
      simp only [List.length_cons]
      omega
    · simp [find_student_index, hs] at h
      obtain ⟨j, hj, rfl⟩ := h
      have := ih j hj
      simp only [List.length_cons]
      omega

theorem find_student_index_eq_none (l : List Student) (name : String) :
    find_student_index l name = none ↔
      ∀ s ∈ l, lower s.nombre ≠ lower name := by
  induction l with
  | nil => simp [find_student_index]
  | cons s rest ih =>
    by_cases hs : lower s.nombre = lower name
    · simp [find_student_index, hs]
    · simp [find_student_index, hs, ih]

/-! ### Lemmas about `getNota` / `setNota` -/

theorem getNota_setNota_self (l : List Student) (i : Nat) (g : ℚ)
    (h : i < l.length) : getNota (setNota l i g) i = g := by
  induction l generalizing i with
  | nil => simp at h
  | cons s rest ih =>
    cases i with
    | zero => simp [setNota, getNota]
    | succ n =>
      simp [setNota, getNota]
      exact ih n (by simpa using h)

theorem setNota_get?_ne (l : List Student) (i : Nat) (g : ℚ) (j : Nat)
    (h : j ≠ i) : (setNota l i g).get? j = l.get? j := by
  induction l generalizing i j with
  | nil => simp [setNota]
  | cons s rest ih =>
    cases i with
    | zero =>
      cases j with
      | zero => exact absurd rfl h
      | succ m => simp [setNota]
    | succ n =>
      cases j with
      | zero => simp [setNota]
      | succ m => simpa [setNota] using ih n m (by omega)

theorem map_lower_setNota (l : List Student) (i : Nat) (g : ℚ) :
    (setNota l i g).map (fun s => lower s.nombre) =
      l.map (fun s => lower s.nombre) := by
  induction l generalizing i with
  | nil => simp [setNota]
  | cons s rest ih =>
    cases i with
    | zero => simp [setNota]
    | succ n => simp [setNota, ih]

/-! ### Lemmas about the modify handler -/

theorem modify_limitReached_of_le (st : AppState) (name : String) (g : ℚ)
    (h : MODIFICATION_LIMIT ≤ attemptsGet st.modification_attempts name) :
    modifyStudent st name g = (.limitReached, st) := by
  unfold modifyStudent
  rw [if_pos h]

theorem modify_updated_eq (st : AppState) (name : String) (g : ℚ) (i : Nat)
    (hl : attemptsGet st.modification_attempts name < MODIFICATION_LIMIT)
    (hf : find_student_index st.students name = some i)
    (hg : g ≠ getNota st.students i) :
    modifyStudent st name g =
      (.updated (MODIFICATION_LIMIT -
          (attemptsGet st.modification_attempts name + 1)),
       ⟨setNota st.students i g,
        dictSet st.modification_attempts name
          (attemptsGet st.modification_attempts name + 1)⟩) := by
  unfold modifyStudent
  rw [if_neg (Nat.not_le.mpr hl), hf]
  simp [hg]

theorem modify_noChange_eq (st : AppState) (name : String) (i : Nat)
    (hl : attemptsGet st.modification_attempts name < MODIFICATION_LIMIT)
    (hf : find_student_index st.students name = some i) :
    modifyStudent st name (getNota st.students i) = (.noChange, st) := by
  unfold modifyStudent
  rw [if_neg (Nat.not_le.mpr hl), hf]
  simp

theorem modify_updated_attempts (st : AppState) (name : String) (g : ℚ)
    (n : Nat) (st' : AppState)
    (h : modifyStudent st name g = (.updated n, st')) :
    attemptsGet st'.modification_attempts name =
      attemptsGet st.modification_attempts name + 1 := by
  unfold modifyStudent at h
  by_cases hl : MODIFICATION_LIMIT ≤ attemptsGet st.modification_attempts name
  · rw [if_pos hl] at h
    simp at h
  · rw [if_neg hl] at h
    cases hf : find_student_index st.students name with
    | none => rw [hf] at h; simp at h
    | some i =>
      rw [hf] at h
      by_cases hg : g = getNota st.students i
      · simp [hg] at h
      · simp [hg] at h
        rw [← h.2]
        exact attemptsGet_dictSet_self _ _ _

/-! ### Lemmas about the add handler and the uniqueness invariant -/

theorem addStudent_attempts (st : AppState) (name : String) (g : ℚ) :
    (addStudent st name g).2.modification_attempts =
      st.modification_attempts := by
  unfold addStudent
  by_cases h1 : name = ""
  · simp [h1]
  · by_cases h2 : (find_student_index st.students name).isSome
    · simp [h1, h2]
    · simp [h1, h2]

theorem map_nombre_setNota (l : List Student) (i : Nat) (g : ℚ) :
    (setNota l i g).map Student.nombre = l.map Student.nombre := by
  induction l generalizing i with
  | nil => simp [setNota]
  | cons s rest ih =>
    cases i with
    | zero => simp [setNota]
    | succ n => simp [setNota, ih]

theorem map_eraseIdx_comm {α β : Type} (f : α → β) (l : List α) (i : Nat) :
    (l.eraseIdx i).map f = (l.map f).eraseIdx i := by
  induction l generalizing i with
  | nil => simp [List.eraseIdx]
  | cons a rest ih =>
    cases i with
    | zero => simp [List.eraseIdx]
    | succ n => simp [List.eraseIdx, ih]

theorem lower_eq_empty_iff (s : String) : lower s = "" ↔ s = "" := by
  cases s with
  | mk data =>
    constructor
    · intro h
      have hd : data.map Char.toLower = [] := congrArg String.data h
      have : data = [] := by simpa using hd
      simp [this]
    · intro h
      rw [h]
      rfl

theorem find_student_index_isSome_iff (l : List Student) (name : String) :
    (find_student_index l name).isSome = true ↔
      ∃ s ∈ l, lower s.nombre = lower name := by
  rw [Option.isSome_iff_ne_none, Ne, find_student_index_eq_none]
  push_neg
  simp

theorem uniq_addStudent (st : AppState) (n : String) (g : ℚ)
    (h : UniqNames st.students) : UniqNames (addStudent st n g).2.students := by
  unfold addStudent
  by_cases h1 : n = ""
  · simpa [h1] using h
  · by_cases h2 : (find_student_index st.students n).isSome
    · simpa [h1, h2] using h
    · have hf : find_student_index st.students n = none :=
        Option.not_isSome_iff_eq_none.mp h2
      have hall := (find_student_index_eq_none st.students n).mp hf
      simp only [h1, h2, if_false, Bool.false_eq_true]
      unfold UniqNames at h ⊢
      rw [List.map_append, List.nodup_append]
      refine ⟨h, by simp, ?_⟩
      intro x hx hx2
      simp only [List.mem_map] at hx
      obtain ⟨s, hs, rfl⟩ := hx
      simp only [List.map_cons, List.map_nil, List.mem_singleton] at hx2
      exact hall s hs hx2

theorem uniq_modifyStudent (st : AppState) (n : String) (g : ℚ)
    (h : UniqNames st.students) :
    UniqNames (modifyStudent st n g).2.students := by
  unfold modifyStudent
  by_cases h1 : MODIFICATION_LIMIT ≤ attemptsGet st.modification_attempts n
  · simpa [h1] using h
  · rw [if_neg h1]
    cases hf : find_student_index st.students n with
    | none => simpa using h
    | some i =>
      by_cases hg : g = getNota st.students i
      · simpa [hg] using h
      · simp only [hg, if_false]
        unfold UniqNames at h ⊢
        simpa [map_lower_setNota] using h

theorem uniq_delete_student (st : AppState) (n : String)
    (h : UniqNames st.students) :
    UniqNames (delete_student st n).2.students := by
  unfold delete_student
  cases hf : find_student_index st.students n with
  | none => simpa using h
  | some i =>
    unfold UniqNames at h ⊢
    simp only
    rw [map_eraseIdx_comm]
    exact h.sublist (List.eraseIdx_sublist _ _)

theorem namesNonempty_addStudent (st : AppState) (n : String) (g : ℚ)
    (h : NamesNonempty st.students) :
    NamesNonempty (addStudent st n g).2.students := by
  unfold addStudent
  by_cases h1 : n = ""
  · simpa [h1] using h
  · by_cases h2 : (find_student_index st.students n).isSome
    · simpa [h1, h2] using h
    · simp only [h1, h2, if_false, Bool.false_eq_true]
      intro s hs
      rcases List.mem_append.mp hs with hs | hs
      · exact h s hs
      · simp at hs
        rw [hs]
        exact h1

theorem namesNonempty_modifyStudent (st : AppState) (n : String) (g : ℚ)
    (h : NamesNonempty st.students) :
    NamesNonempty (modifyStudent st n g).2.students := by
  unfold modifyStudent
  by_cases h1 : MODIFICATION_LIMIT ≤ attemptsGet st.modification_attempts n
  · simpa [h1] using h
  · rw [if_neg h1]
    cases hf : find_student_index st.students n with
    | none => simpa using h
    | some i =>
      by_cases hg : g = getNota st.students i
      · simpa [hg] using h
      · simp only [hg, if_false]
        intro s hs
        have : s.nombre ∈ (setNota st.students i g).map Student.nombre :=
          List.mem_map_of_mem _ hs
        rw [map_nombre_setNota] at this
        obtain ⟨s', hs', he⟩ := List.mem_map.mp this
        rw [← he]
        exact h s' hs'

theorem namesNonempty_delete_student (st : AppState) (n : String)
    (h : NamesNonempty st.students) :
    NamesNonempty (delete_student st n).2.students := by
  unfold delete_student
  cases hf : find_student_index st.students n with
  | none => simpa using h
  | some i =>
    intro s hs
    exact h s ((List.eraseIdx_sublist _ _).subset hs)

theorem invariants_run (ops : List Op) :
    UniqNames (run ops).students ∧ NamesNonempty (run ops).students := by
  suffices h : ∀ st : AppState, UniqNames st.students →
      NamesNonempty st.students →
      UniqNames (ops.foldl step st).students ∧
        NamesNonempty (ops.foldl step st).students by
    exact h initState (by simp [initState, UniqNames])
      (by intro s hs; simp [initState] at hs)
  induction ops with
  | nil => intro st h1 h2; exact ⟨h1, h2⟩
  | cons op rest ih =>
    intro st h1 h2
    apply ih
    · cases op with
      | add n g => exact uniq_addStudent st n g h1
      | modify n g => exact uniq_modifyStudent st n g h1
      | delete n => exact uniq_delete_student st n h1
      | resetAll => simp [step, reset_all_data, UniqNames]
    · cases op with
      | add n g => exact namesNonempty_addStudent st n g h2
      | modify n g => exact namesNonempty_modifyStudent st n g h2
      | delete n => exact namesNonempty_delete_student st n h2
      | resetAll => intro s hs; simp [step, reset_all_data] at hs

/-! ### Lemmas about the attempts bound -/

theorem attemptsGet_le_of_bounded (m : List (String × Nat))
    (h : AttemptsBounded m) (name : String) :
    attemptsGet m name ≤ MODIFICATION_LIMIT := by
  induction m with
  | nil => simp [attemptsGet, MODIFICATION_LIMIT]
  | cons p rest ih =>
    obtain ⟨k, v⟩ := p
    by_cases hk : k = name
    · simp only [attemptsGet, hk, if_pos]
      exact h (k, v) (List.mem_cons_self _ _)
    · simp only [attemptsGet, hk, if_false]
      exact ih (fun q hq => h q (List.mem_cons_of_mem _ hq))

theorem attemptsBounded_dictSet (m : List (String × Nat)) (k : String)
    (v : Nat) (h : AttemptsBounded m) (hv : v ≤ MODIFICATION_LIMIT) :
    AttemptsBounded (dictSet m k v) := by
  induction m with
  | nil =>
    intro p hp
    simp [dictSet] at hp
    rw [hp]
    exact hv
  | cons q rest ih =>
    obtain ⟨k', v'⟩ := q
    intro p hp
    by_cases hk : k' = k
    · simp only [dictSet, hk, if_pos, List.mem_cons] at hp
      rcases hp with hp | hp
      · rw [hp]; exact hv
      · exact h p (List.mem_cons_of_mem _ hp)
    · simp only [dictSet, hk, if_false, List.mem_cons] at hp
      rcases hp with hp | hp
      · rw [hp]
        exact h (k', v') (List.mem_cons_self _ _)
      · exact ih (fun q hq => h q (List.mem_cons_of_mem _ hq)) p hp

theorem attemptsBounded_step (st : AppState) (op : Op)
    (h : AttemptsBounded st.modification_attempts) :
    AttemptsBounded (step st op).modification_attempts := by
  cases op with
  | add n g =>
    show AttemptsBounded (addStudent st n g).2.modification_attempts
    rw [addStudent_attempts]
    exact h
  | modify n g =>
    show AttemptsBounded (modifyStudent st n g).2.modification_attempts
    unfold modifyStudent
    by_cases h1 : MODIFICATION_LIMIT ≤ attemptsGet st.modification_attempts n
    · simpa [h1] using h
    · rw [if_neg h1]
      cases hf : find_student_index st.students n with
      | none => simpa using h
      | some i =>
        by_cases hg : g = getNota st.students i
        · simpa [hg] using h
        · simp only [hg, if_false]
          exact attemptsBounded_dictSet _ _ _ h (Nat.not_le.mp h1)
  | delete n =>
    show AttemptsBounded (delete_student st n).2.modification_attempts
    unfold delete_student
    cases hf : find_student_index st.students n with
    | none => simpa using h
    | some i =>
      intro p hp
      exact h p (List.mem_of_mem_filter hp)
  | resetAll =>
    intro p hp
    simp [step, reset_all_data] at hp

/-! ### Lemmas about statistics -/

theorem listMax_mem (l : List ℚ) (h : l ≠ []) : listMax l ∈ l := by
  induction l with
  | nil => simp at h
  | cons x rest ih =>
    cases rest with
    | nil => simp [listMax]
    | cons y t =>
      rw [listMax]
      rcases le_total x (listMax (y :: t)) with hle | hle
      · rw [max_eq_right hle]
        exact List.mem_cons_of_mem _ (ih (by simp))
      · rw [max_eq_left hle]
        simp

theorem le_listMax (l : List ℚ) : ∀ x ∈ l, x ≤ listMax l := by
  induction l with
  | nil => simp
  | cons a rest ih =>
    intro x hx
    cases rest with
    | nil =>
      simp at hx
      simp [listMax, hx]
    | cons y t =>
      rw [listMax]
      rcases List.mem_cons.mp hx with rfl | hmem
      · exact le_max_left _ _
      · exact le_trans (ih x hmem) (le_max_right _ _)

theorem listMin_mem (l : List ℚ) (h : l ≠ []) : listMin l ∈ l := by
  induction l with
  | nil => simp at h
  | cons x rest ih =>
    cases rest with
    | nil => simp [listMin]
    | cons y t =>
      rw [listMin]
      rcases le_total (listMin (y :: t)) x with hle | hle
      · rw [min_eq_right hle]
        exact List.mem_cons_of_mem _ (ih (by simp))
      · rw [min_eq_left hle]
        simp

theorem listMin_le (l : List ℚ) : ∀ x ∈ l, listMin l ≤ x := by
  induction l with
  | nil => simp
  | cons a rest ih =>
    intro x hx
    cases rest with
    | nil =>
      simp at hx
      simp [listMin, hx]
    | cons y t =>
      rw [listMin]
      rcases List.mem_cons.mp hx with rfl | hmem
      · exact min_le_left _ _
      · exact le_trans (min_le_right _ _) (ih x hmem)

/-! ### Lemmas about the search filter -/

theorem parsePattern_all_lits (cs : List Char)
    (h : ∀ c ∈ cs, isMetaChar c = false) :
    parsePattern cs = some (cs.map ReAtom.lit) := by
  induction cs with
  | nil => simp [parsePattern]
  | cons c rest ih =>
    have hc := h c (List.mem_cons_self _ _)
    have hdot : ¬ c = '.' := by
      intro hc'
      rw [hc'] at hc
      simp [isMetaChar] at hc
    rw [parsePattern]
    rw [if_neg hdot, if_neg (by simp [hc])]
    rw [ih (fun d hd => h d (List.mem_cons_of_mem _ hd))]
    simp

theorem matchHere_lits (cs : List Char) :
    ∀ s : List Char, matchHere (cs.map ReAtom.lit) s = true ↔ cs <+: s := by
  induction cs with
  | nil =>
    intro s
    simp [matchHere, List.nil_prefix]
  | cons c rest ih =>
    intro s
    cases s with
    | nil => simp [matchHere]
    | cons d ds =>
      simp only [List.map_cons, matchHere, atomMatches, Bool.and_eq_true,
        decide_eq_true_eq, ih ds, List.cons_prefix_cons]

theorem reSearch_lits (cs : List Char) :
    ∀ s : List Char, reSearch (cs.map ReAtom.lit) s = true ↔ cs <:+: s := by
  intro s
  induction s with
  | nil =>
    rw [reSearch, matchHere_lits]
    simp [ List.infix_nil]
  | cons c cs' ih =>
    rw [reSearch, Bool.or_eq_true, matchHere_lits, ih,
      List.infix_cons_iff]

/-! ### Claim theorems -/

/-- C1: once the attempt counter for a name has reached the fixed limit
`MODIFICATION_LIMIT = 3`, a further `modify` on that name reports
`limitReached` and performs no mutation (the whole state, hence the stored
grade and the counter, is unchanged); in particular, starting from an
attempt count of 0, after exactly three successful grade-changing
modifications a fourth `modify` fails this way. -/
theorem claim_C1 :
    (∀ (st : AppState) (name : String) (g : ℚ),
      MODIFICATION_LIMIT ≤ attemptsGet st.modification_attempts name →
      modifyStudent st name g = (.limitReached, st)) ∧
    (∀ (st : AppState) (name : String) (g1 g2 g3 g4 : ℚ)
       (st1 st2 st3 : AppState) (n1 n2 n3 : Nat),
      attemptsGet st.modification_attempts name = 0 →
      modifyStudent st name g1 = (.updated n1, st1) →
      modifyStudent st1 name g2 = (.updated n2, st2) →
      modifyStudent st2 name g3 = (.updated n3, st3) →
      modifyStudent st3 name g4 = (.limitReached, st3)) := by
  refine ⟨modify_limitReached_of_le, ?_⟩
  intro st name g1 g2 g3 g4 st1 st2 st3 n1 n2 n3 h0 h1 h2 h3
  have a1 := modify_updated_attempts _ _ _ _ _ h1
  have a2 := modify_updated_attempts _ _ _ _ _ h2
  have a3 := modify_updated_attempts _ _ _ _ _ h3
  apply modify_limitReached_of_le
  rw [a3, a2, a1, h0]
  decide

/-- Witness for C1: with the counter for "Ana" at 3, a modify fails with
`limitReached` and changes nothing. -/
theorem claim_C1_witness :
    modifyStudent ⟨[⟨"Ana", 5⟩], [("Ana", 3)]⟩ "Ana" 1 =
      (.limitReached, ⟨[⟨"Ana", 5⟩], [("Ana", 3)]⟩) :=
  claim_C1.1 ⟨[⟨"Ana", 5⟩], [("Ana", 3)]⟩ "Ana" 1 (by decide)

/-- C2 counterexample: "Ana" is present with attempt counter 3; a modify
whose new grade equals the current grade reports `limitReached`, not the
distinct no-change outcome the claim requires for every present student. -/
theorem claim_C2_counterexample :
    modifyStudent ⟨[⟨"Ana", 4⟩], [("Ana", 3)]⟩ "Ana" 4 =
      (.limitReached, ⟨[⟨"Ana", 4⟩], [("Ana", 3)]⟩) ∧
    (modifyStudent ⟨[⟨"Ana", 4⟩], [("Ana", 3)]⟩ "Ana" 4).1 ≠
      ModifyResult.noChange :=
  ⟨by decide, by decide⟩

/-- C2 (amended): for a student present in the roster whose attempt count
is still below the limit, a modify with a grade identical to the current
one is a no-op — it changes neither the roster nor the counter and
reports the distinct `noChange` outcome (when the count is already at the
limit, the limit gate fires first and reports `limitReached` instead). -/
theorem claim_C2 :
    ∀ (st : AppState) (name : String) (i : Nat),
      attemptsGet st.modification_attempts name < MODIFICATION_LIMIT →
      find_student_index st.students name = some i →
      modifyStudent st name (getNota st.students i) = (.noChange, st) := by
  intro st name i hl hf
  unfold modifyStudent
  rw [if_neg (Nat.not_le.mpr hl), hf]
  simp

/-- Witness for C2: modifying "Ana" (counter 0) with the unchanged grade 4
reports `noChange` and leaves the state intact. -/
theorem claim_C2_witness :
    modifyStudent ⟨[⟨"Ana", 4⟩], []⟩ "Ana" 4 =
      (.noChange, ⟨[⟨"Ana", 4⟩], []⟩) :=
  claim_C2 ⟨[⟨"Ana", 4⟩], []⟩ "Ana" 0 (by decide) (by decide)

/-- C3: for a present student with attempt count below the limit and a new
grade different from the current one, `modify` updates exactly that
record's grade in place, increments the attempt counter for the name by
exactly 1, and reports the remaining budget `limit − newCount`. -/
theorem claim_C3 :
    ∀ (st : AppState) (name : String) (g : ℚ) (i : Nat),
      attemptsGet st.modification_attempts name < MODIFICATION_LIMIT →
      find_student_index st.students name = some i →
      g ≠ getNota st.students i →
      modifyStudent st name g =
        (.updated (MODIFICATION_LIMIT -
            (attemptsGet st.modification_attempts name + 1)),
         ⟨setNota st.students i g,
          dictSet st.modification_attempts name
            (attemptsGet st.modification_attempts name + 1)⟩) ∧
      attemptsGet (modifyStudent st name g).2.modification_attempts name =
        attemptsGet st.modification_attempts name + 1 ∧
      getNota (modifyStudent st name g).2.students i = g ∧
      (∀ j, j ≠ i →
        (modifyStudent st name g).2.students.get? j = st.students.get? j) := by
  intro st name g i hl hf hg
  have heq := modify_updated_eq st name g i hl hf hg
  refine ⟨heq, ?_, ?_, ?_⟩
  · rw [heq]
    exact attemptsGet_dictSet_self _ _ _
  · rw [heq]
    exact getNota_setNota_self _ _ _ (find_student_index_lt_length _ _ _ hf)
  · intro j hj
    rw [heq]
    exact setNota_get?_ne _ _ _ _ hj

/-- Witness for C3: modifying "Ana" (counter 0) from grade 4 to 5 yields
the updated record, counter 1, and remaining budget 2. -/
theorem claim_C3_witness :
    modifyStudent ⟨[⟨"Ana", 4⟩], []⟩ "Ana" 5 =
      (.updated 2, ⟨[⟨"Ana", 5⟩], [("Ana", 1)]⟩) :=
  (claim_C3 ⟨[⟨"Ana", 4⟩], []⟩ "Ana" 5 0 (by decide) (by decide)
    (by decide)).1

/-- C4 counterexample: a blank (whitespace-only) name is not rejected —
the add handler only tests `if not name`, which is false for `" "`, so a
record with the blank name `" "` is appended instead of the empty-name
failure the claim requires for every empty/blank name. -/
theorem claim_C4_counterexample :
    isBlank " " = true ∧
    addStudent ⟨[], []⟩ " " 4 = (.added, ⟨[⟨" ", 4⟩], []⟩) ∧
    (addStudent ⟨[], []⟩ " " 4).1 ≠ AddResult.emptyName :=
  ⟨by decide, by decide, by decide⟩

/-- C4 (amended): add fails with the empty-name error exactly for the
empty string (whitespace-only names are not rejected); otherwise a
case-folded duplicate fails with the duplicate error; otherwise the new
record is appended at the end.  Failures leave the roster unchanged, and
no branch of add ever touches the attempt counters. -/
theorem claim_C4 :
    ∀ (st : AppState) (name : String) (g : ℚ),
      (name = "" → addStudent st name g = (.emptyName, st)) ∧
      (name ≠ "" → (find_student_index st.students name).isSome →
        addStudent st name g = (.duplicateName, st)) ∧
      (name ≠ "" → find_student_index st.students name = none →
        addStudent st name g =
          (.added, ⟨st.students ++ [⟨name, g⟩], st.modification_attempts⟩)) ∧
      (addStudent st name g).2.modification_attempts =
        st.modification_attempts := by
  intro st name g
  refine ⟨?_, ?_, ?_, addStudent_attempts st name g⟩
  · intro h
    simp [addStudent, h]
  · intro h hf
    simp [addStudent, h, hf]
  · intro h hf
    simp [addStudent, h, hf]

/-- Witness for C4: adding "ANA" when "Ana" is present fails with the
duplicate error (case-insensitive collision) and changes nothing. -/
theorem claim_C4_witness :
    addStudent ⟨[⟨"Ana", 4⟩], []⟩ "ANA" 5 =
      (.duplicateName, ⟨[⟨"Ana", 4⟩], []⟩) :=
  (claim_C4 ⟨[⟨"Ana", 4⟩], []⟩ "ANA" 5).2.1 (by decide) (by decide)

/-- C5: the case-folded-name uniqueness invariant is preserved by add,
modify, delete and resetAll, holds in every state reachable from the
empty session, and in any reachable state an add whose name collides
case-insensitively with a stored record fails with the duplicate error
and leaves the state unchanged. -/
theorem claim_C5 :
    (∀ (st : AppState) (n : String) (g : ℚ), UniqNames st.students →
      UniqNames (addStudent st n g).2.students) ∧
    (∀ (st : AppState) (n : String) (g : ℚ), UniqNames st.students →
      UniqNames (modifyStudent st n g).2.students) ∧
    (∀ (st : AppState) (n : String), UniqNames st.students →
      UniqNames (delete_student st n).2.students) ∧
    UniqNames reset_all_data.students ∧
    (∀ (ops : List Op) (n : String) (g : ℚ),
      (find_student_index (run ops).students n).isSome →
      addStudent (run ops) n g = (.duplicateName, run ops)) ∧
    (∀ ops : List Op, UniqNames (run ops).students) := by
  refine ⟨uniq_addStudent, uniq_modifyStudent, uniq_delete_student,
    by simp [reset_all_data, UniqNames], ?_, fun ops => (invariants_run ops).1⟩
  intro ops n g hf
  obtain ⟨s, hs, hlow⟩ := (find_student_index_isSome_iff _ _).mp hf
  have hne : n ≠ "" := by
    intro h0
    rw [h0] at hlow
    have : lower s.nombre = "" := by
      rw [hlow]
      rfl
    exact (invariants_run ops).2 s hs ((lower_eq_empty_iff _).mp this)
  simp [addStudent, hne, hf]

/-- Witness for C5: after adding "Ana" from the empty session, an add of
the case-variant "ANA" fails with the duplicate error. -/
theorem claim_C5_witness :
    addStudent (run [Op.add "Ana" 4]) "ANA" 5 =
      (.duplicateName, run [Op.add "Ana" 4]) :=
  claim_C5.2.2.2.2.1 [Op.add "Ana" 4] "ANA" 5 (by decide)

/-- C6 counterexample: with "Ana" stored (attempt counter 2 under the key
"Ana"), deleting via the case-variant name "ana" removes the record but
leaves the attempt-map entry "Ana" in place, so re-adding "Ana" yields an
attempt count of 2, not the 0 the claim requires. -/
theorem claim_C6_counterexample :
    delete_student ⟨[⟨"Ana", 4⟩], [("Ana", 2)]⟩ "ana" =
      (true, ⟨[], [("Ana", 2)]⟩) ∧
    attemptsGet
      (addStudent ⟨[], [("Ana", 2)]⟩ "Ana" 5).2.modification_attempts
      "Ana" = 2 :=
  ⟨by decide, by decide⟩

/-- C6 (amended): delete removes the record matched case-insensitively
(the remaining records keep their relative order) and removes the
attempt-map entry keyed by the exact argument string, if present; hence
re-adding the same argument name yields attempt count 0 for it.  When the
argument differs in case from the stored name (which the UI never
produces), the stored name's entry can survive.  If no record matches,
delete fails and changes nothing. -/
theorem claim_C6 :
    ∀ (st : AppState) (name : String),
      (find_student_index st.students name = none →
        delete_student st name = (false, st)) ∧
      (∀ i, find_student_index st.students name = some i →
        delete_student st name =
          (true, ⟨st.students.eraseIdx i,
            dictDel st.modification_attempts name⟩) ∧
        attemptsGet (delete_student st name).2.modification_attempts
          name = 0 ∧
        (∀ g, attemptsGet
          (addStudent (delete_student st name).2 name g).2.modification_attempts
          name = 0)) := by
  intro st name
  constructor
  · intro h
    simp [delete_student, h]
  · intro i h
    have heq : delete_student st name =
        (true, ⟨st.students.eraseIdx i,
          dictDel st.modification_attempts name⟩) := by
      simp [delete_student, h]
    refine ⟨heq, ?_, ?_⟩
    · rw [heq]
      exact attemptsGet_dictDel_self _ _
    · intro g
      rw [heq, addStudent_attempts]
      exact attemptsGet_dictDel_self _ _

/-- Witness for C6: deleting "Ana" by its exact stored name removes the
record (keeping "Luis") and erases its attempt entry. -/
theorem claim_C6_witness :
    delete_student ⟨[⟨"Ana", 4⟩, ⟨"Luis", 3⟩], [("Ana", 2)]⟩ "Ana" =
      (true, ⟨[⟨"Luis", 3⟩], []⟩) :=
  ((claim_C6 ⟨[⟨"Ana", 4⟩, ⟨"Luis", 3⟩], [("Ana", 2)]⟩ "Ana").2 0
    (by decide)).1

/-- C7: stats on the empty roster is the explicit zero record; on a
nonempty roster the average times the roster size equals the sum of the
grades (i.e. it is the arithmetic mean), the high is a grade and bounds
every grade from above, the low is a grade and bounds every grade from
below; and on the roster Ana 80 / Luis 60 / Eva 100 the result is
average 80, high 100, low 60.  (`get_stats` is a pure function of the
roster, so it mutates nothing.) -/
theorem claim_C7 :
    get_stats [] = ⟨0, 0, 0⟩ ∧
    (∀ students : List Student, students ≠ [] →
      (get_stats students).average * (students.length : ℚ) =
        (students.map Student.nota).sum ∧
      (get_stats students).high ∈ students.map Student.nota ∧
      (∀ g ∈ students.map Student.nota, g ≤ (get_stats students).high) ∧
      (get_stats students).low ∈ students.map Student.nota ∧
      (∀ g ∈ students.map Student.nota, (get_stats students).low ≤ g)) ∧
    get_stats [⟨"Ana", 80⟩, ⟨"Luis", 60⟩, ⟨"Eva", 100⟩] = ⟨80, 100, 60⟩ := by
  refine ⟨rfl, ?_, ?_⟩
  · intro students h
    have hmap : students.map Student.nota ≠ [] := by
      simpa using h
    have hlen : ((students.length : ℚ)) ≠ 0 :=
      Nat.cast_ne_zero.mpr (Nat.pos_iff_ne_zero.mp (List.length_pos.mpr h))
    simp only [get_stats, if_neg h]
    refine ⟨?_, listMax_mem _ hmap, le_listMax _, listMin_mem _ hmap,
      listMin_le _⟩
    rw [List.length_map]
    exact div_mul_cancel₀ _ hlen
  · simp [get_stats, listMax, listMin, Stats.mk.injEq]
    norm_num

/-- Witness for C7: on the Ana/Luis/Eva roster, the high is one of the
grades and the average times 3 equals the grade sum. -/
theorem claim_C7_witness :
    (get_stats [⟨"Ana", (80 : ℚ)⟩, ⟨"Luis", 60⟩, ⟨"Eva", 100⟩]).high ∈
      [⟨"Ana", (80 : ℚ)⟩, ⟨"Luis", 60⟩, ⟨"Eva", 100⟩].map Student.nota ∧
    (get_stats [⟨"Ana", (80 : ℚ)⟩, ⟨"Luis", 60⟩, ⟨"Eva", 100⟩]).average *
      ((([⟨"Ana", (80 : ℚ)⟩, ⟨"Luis", 60⟩, ⟨"Eva", 100⟩] :
          List Student).length : Nat) : ℚ) =
      ([⟨"Ana", (80 : ℚ)⟩, ⟨"Luis", 60⟩, ⟨"Eva", 100⟩].map Student.nota).sum := by
  have h := claim_C7.2.1 [⟨"Ana", (80 : ℚ)⟩, ⟨"Luis", 60⟩, ⟨"Eva", 100⟩]
    (by decide)
  exact ⟨h.2.1, h.1⟩

/-- C8 counterexample: the search term "." returns the record "Ana" even
though "." is not a substring of "Ana" in any case — the term reaches
pandas `str.contains` as a regular expression, where `.` matches any
character, so the result is not the substring filter the claim states. -/
theorem claim_C8_counterexample :
    searchStudents "." [⟨"Ana", 4⟩] = some [⟨"Ana", 4⟩] ∧
    ¬ substrCI "." "Ana" :=
  ⟨by decide, by decide⟩

/-- C8 (amended): an empty (falsy) term returns the full roster
unfiltered, and for a term containing no regex metacharacter the search
returns exactly the records whose name contains the term as a
case-insensitive substring, in roster order; the term is, however,
interpreted as a regular expression, so metacharacter terms can match
names not containing them.  (The filter is a pure function of the roster,
so search mutates nothing.) -/
theorem claim_C8 :
    ∀ (term : String) (students : List Student),
      (term = "" → searchStudents term students = some students) ∧
      (allLiteral (lower term) = true →
        searchStudents term students =
          some (students.filter
            (fun s => decide (substrCI term s.nombre)))) := by
  intro term students
  constructor
  · intro h
    simp [searchStudents, h]
  · intro hlit
    by_cases ht : term = ""
    · subst ht
      have h1 : searchStudents "" students = some students := by
        simp [searchStudents]
      rw [h1]
      have hall : ∀ s : Student, decide (substrCI "" s.nombre) = true := by
        intro s
        apply decide_eq_true
        show (lower "").data <:+: (lower s.nombre).data
        exact List.nil_infix
      rw [List.filter_eq_self.mpr (fun a _ => hall a)]
    · have hmeta : ∀ c ∈ (lower term).data, isMetaChar c = false := by
        intro c hc
        have := List.all_eq_true.mp hlit c hc
        simpa using this
      rw [searchStudents, if_neg ht, parsePattern_all_lits _ hmeta]
      simp only [Option.map_some']
      congr 1
      apply List.filter_congr
      intro s _
      by_cases hI : substrCI term s.nombre
      · rw [decide_eq_true hI]
        exact (reSearch_lits _ _).mpr hI
      · rw [decide_eq_false hI]
        rw [Bool.eq_false_iff]
        intro hr
        exact hI ((reSearch_lits _ _).mp hr)

/-- Witness for C8: on the roster Ana Pérez / Luis Gómez the literal term
"an" filters by case-insensitive substring and keeps exactly Ana Pérez. -/
theorem claim_C8_witness :
    searchStudents "an" [⟨"Ana Pérez", 4⟩, ⟨"Luis Gómez", 3⟩] =
      some (([⟨"Ana Pérez", (4 : ℚ)⟩, ⟨"Luis Gómez", 3⟩] :
          List Student).filter
        (fun s => decide (substrCI "an" s.nombre))) ∧
    ([⟨"Ana Pérez", (4 : ℚ)⟩, ⟨"Luis Gómez", 3⟩] : List Student).filter
        (fun s => decide (substrCI "an" s.nombre)) = [⟨"Ana Pérez", 4⟩] :=
  ⟨(claim_C8 "an" [⟨"Ana Pérez", 4⟩, ⟨"Luis Gómez", 3⟩]).2 (by decide),
   by decide⟩

/-- C9: the exported grid is a header row (columns nombre, nota, Estado)
followed by one row per student in roster order, each row being the name,
the grade, and the derived pass/fail status, where the status reads
"Aprobado" exactly when the grade is at least the pass threshold 3.0 and
"Reprobado" exactly when it is below.  (The grid is a pure function of
the roster, so exporting mutates nothing.) -/
theorem claim_C9 :
    ∀ students : List Student,
      (csvRows students).length = students.length + 1 ∧
      (csvRows students).head? =
        some [.str "nombre", .str "nota", .str "Estado"] ∧
      (∀ i : Nat, (csvRows students).get? (i + 1) =
        (students.get? i).map csvRow) ∧
      (∀ s : Student, csvRow s =
        [.str s.nombre, .num s.nota, .str (estado s.nota)]) ∧
      (∀ g : ℚ, (estado g = "Aprobado" ↔ PASSING_GRADE ≤ g) ∧
        (estado g = "Reprobado" ↔ g < PASSING_GRADE)) := by
  intro students
  refine ⟨by simp [csvRows], rfl, ?_, fun s => rfl, ?_⟩
  · intro i
    simp [csvRows]
  · intro g
    by_cases h : PASSING_GRADE ≤ g
    · rw [estado, if_pos h]
      constructor
      · exact ⟨fun _ => h, fun _ => rfl⟩
      · constructor
        · intro hr
          exact absurd hr (by decide)
        · intro hg
          exact absurd h (not_le.mpr hg)
    · rw [estado, if_neg h]
      constructor
      · constructor
        · intro hr
          exact absurd hr (by decide)
        · intro hg
          exact absurd hg h
      · exact ⟨fun _ => not_le.mp h, fun _ => rfl⟩

/-- Witness for C9: the grid for Ana (4, passing) and Luis (2, failing),
and the first data row extracted through the indexing law. -/
theorem claim_C9_witness :
    csvRows [⟨"Ana", 4⟩, ⟨"Luis", 2⟩] =
      [[.str "nombre", .str "nota", .str "Estado"],
       [.str "Ana", .num 4, .str "Aprobado"],
       [.str "Luis", .num 2, .str "Reprobado"]] ∧
    (csvRows [⟨"Ana", (4 : ℚ)⟩, ⟨"Luis", 2⟩]).get? 1 =
      some [.str "Ana", .num 4, .str "Aprobado"] := by
  have h := (claim_C9 [⟨"Ana", (4 : ℚ)⟩, ⟨"Luis", 2⟩]).2.2.1 0
  refine ⟨?_, h.trans (by norm_num [csvRow, estado, PASSING_GRADE])⟩
  norm_num [csvRows, csvRow, estado, PASSING_GRADE]

/-- C10: in every state reachable by a sequence of add / modify / delete /
resetAll actions from the empty session, the attempt counter of every
name is at most the modification limit 3, because modify refuses (without
incrementing) once the count reaches the limit. -/
theorem claim_C10 :
    ∀ (ops : List Op) (name : String),
      attemptsGet (run ops).modification_attempts name ≤
        MODIFICATION_LIMIT := by
  intro ops name
  apply attemptsGet_le_of_bounded
  have h : ∀ (l : List Op) (st : AppState),
      AttemptsBounded st.modification_attempts →
      AttemptsBounded ((l.foldl step st).modification_attempts) := by
    intro l
    induction l with
    | nil => intro st h; exact h
    | cons op rest ih =>
      intro st h
      exact ih _ (attemptsBounded_step st op h)
  apply h
  intro p hp
  simp [initState] at hp

end GestionNotas
